import Mathlib

/-!
Verification of the collective result aggregator in
`src/mesh_graphormer/utils/comm.py` (`gather_on_master`, `reduce_dict`).

The two functions are SPMD programs: every process of a group of size
`world_size` runs the same code with its own rank and its own local data,
and collectives (`dist.all_gather`, `dist.gather`, `dist.reduce`) exchange
data between ranks.  We embed one call of each function as a pure Lean
function of the global view: the list of per-rank inputs (indexed by rank)
together with the rank of the process whose result we compute.  The
collectives are evaluated globally, exactly as the distributed runtime
would deliver them.

Two aspects of the source need explicit modelling choices:

* `pickle.dumps` / `pickle.loads` are modelled by an abstract `Codec`.
  The property of the pickle wire format that `gather_on_master` relies on
  is captured by `SelfDelimiting`: `pickle.loads` stops at the STOP opcode
  of the stream and ignores trailing bytes.

* `torch.ByteTensor(size=(n,))` allocates an uninitialized tensor; its
  contents are arbitrary.  The padding bytes are therefore a parameter
  `pad : Nat → Nat → Nat` of the embedding (`pad r i` is the `i`-th byte
  of the padding allocation made at rank `r`), universally quantified in
  the theorems.
-/

/-- A serialization codec, standing for `pickle.dumps` / `pickle.loads`.
Bytes are modelled as natural numbers; `deser` returns `none` where
`pickle.loads` would raise. -/
structure Codec (α : Type) where
  ser : α → List Nat
  deser : List Nat → Option α

/-- The property of the pickle wire format that `gather_on_master` relies
on: `pickle.loads` reads the stream up to its STOP opcode and ignores any
trailing bytes, so deserializing a serialized value followed by arbitrary
trailing bytes recovers the value exactly. -/
def SelfDelimiting {α : Type} (c : Codec α) : Prop :=
  ∀ (x : α) (t : List Nat), c.deser (c.ser x ++ t) = some x

/-- Per-rank serialized buffers, in ascending rank order: each rank computes
`buffer = pickle.dumps(data)` and views it as a byte tensor
(`torch.ByteTensor(torch.ByteStorage.from_buffer(buffer))`). -/
def serBufs {α : Type} (c : Codec α) (payloads : List α) : List (List Nat) :=
  payloads.map c.ser

/-- The `size_list` obtained from `dist.all_gather` of each rank's
`local_size = tensor.numel()`, in ascending rank order. -/
def sizeList {α : Type} (c : Codec α) (payloads : List α) : List Nat :=
  (serBufs c payloads).map List.length

/-- The value `max_size = max(size_list)`.  Python's `max` on a nonempty list of
naturals coincides with `foldl max 0`; the list is nonempty whenever the
`world_size == 1` early return was not taken. -/
def maxSize {α : Type} (c : Codec α) (payloads : List α) : Nat :=
  (sizeList c payloads).foldl max 0

/-- The tensor rank `r` contributes to `dist.gather`: its serialized buffer,
concatenated with the uninitialized allocation
`torch.ByteTensor(size=(max_size - local_size,))` when `local_size`
differs from `max_size` (source lines 76-79). -/
def paddedBuf {α : Type} (c : Codec α) (pad : Nat → Nat → Nat)
    (payloads : List α) (r : Nat) : List Nat :=
  let buf := (serBufs c payloads).getD r []
  let m := maxSize c payloads
  if buf.length ≠ m then buf ++ (List.range (m - buf.length)).map (pad r)
  else buf

/-- The `tensor_list` filled in on the main process by
`dist.gather(tensor, gather_list=tensor_list, dst=0)`: the padded tensors
of all ranks, in ascending rank order. -/
def gatheredTensors {α : Type} (c : Codec α) (pad : Nat → Nat → Nat)
    (payloads : List α) : List (List Nat) :=
  (List.range payloads.length).map (paddedBuf c pad payloads)

/-- The byte buffer the main process hands to `pickle.loads` for the tensor
received from rank `r`: `buffer = tensor.cpu().numpy().tobytes()`, i.e. the
bytes of the full received tensor. -/
def masterDeserInput {α : Type} (c : Codec α) (pad : Nat → Nat → Nat)
    (payloads : List α) (r : Nat) : List Nat :=
  (gatheredTensors c pad payloads).getD r []

/-- The observable outcome of `gather_on_master` on one process: the
gathered list on the main process, no result (Python `None`) on the other
processes, or a raised deserialization error. -/
inductive GatherResult (α : Type) where
  | ok : List α → GatherResult α
  | noResult : GatherResult α
  | serError : GatherResult α
deriving DecidableEq

/-- One call of `gather_on_master(data)` (source lines 49-99), as observed
by the process of rank `rank` in a group whose per-rank payloads are
`payloads` (so `world_size = payloads.length` and `data = payloads[rank]`).
`pad` supplies the contents of the uninitialized padding allocations. -/
def gather_on_master {α : Type} [Inhabited α] (c : Codec α)
    (pad : Nat → Nat → Nat) (payloads : List α) (rank : Nat) : GatherResult α :=
  let world_size := payloads.length
  if world_size = 1 then GatherResult.ok [payloads.getD rank default]
  else if rank = 0 then
    match (gatheredTensors c pad payloads).mapM c.deser with
    | some data_list => GatherResult.ok data_list
    | none => GatherResult.serError
  else GatherResult.noResult

/-- A concrete self-delimiting codec used to exercise the theorems: a list
of naturals is serialized as its length followed by its elements, so
payloads of different sizes have serialized buffers of different lengths. -/
def lpCodec : Codec (List Nat) where
  ser xs := xs.length :: xs
  deser l :=
    match l with
    | [] => none
    | n :: rest => if n ≤ rest.length then some (rest.take n) else none

theorem lpCodec_selfDelimiting : SelfDelimiting lpCodec := by
  intro x t
  simp [lpCodec, List.take_left]

example : gather_on_master lpCodec (fun r i => r + i + 1) [[5], [7, 8], []] 0
    = GatherResult.ok [[5], [7, 8], []] := by decide

example : gather_on_master lpCodec (fun r i => r + i + 1) [[5], [7, 8], []] 1
    = GatherResult.noResult := by decide

example : gather_on_master lpCodec (fun _ _ => 0) [[5, 6]] 0
    = GatherResult.ok [[5, 6]] := by decide

/-- Lookup in a Python dict modelled as an association list in insertion
order (`input_dict[k]`); a well-formed dict has no duplicate keys, so the
first match is the only one.  `d` is returned for an absent key. -/
def dictGetD {κ β : Type} [DecidableEq κ] (m : List (κ × β)) (k : κ) (d : β) : β :=
  match m with
  | [] => d
  | p :: rest => if k = p.1 then p.2 else dictGetD rest k d

/-- The list `sorted(input_dict.keys())` (source line 117). -/
def sortedKeys {κ β : Type} [LinearOrder κ] (m : List (κ × β)) : List κ :=
  (m.map Prod.fst).insertionSort (· ≤ ·)

/-- The value vector one rank stacks: `values` after the sorted-key loop and
`torch.stack(values, dim=0)` (source lines 117-121); tensor entries are
modelled as rationals. -/
def stackedValues {κ : Type} [LinearOrder κ] (m : List (κ × ℚ)) : List ℚ :=
  (sortedKeys m).map (fun k => dictGetD m k 0)

/-- Elementwise addition of two stacked tensors. -/
def addVec (a b : List ℚ) : List ℚ := List.zipWith (· + ·) a b

/-- The tensor held by rank 0 after `dist.reduce(values, dst=0)`: the
elementwise sum of all ranks' stacked tensors. -/
def reducedValues {κ : Type} [LinearOrder κ] (dicts : List (List (κ × ℚ))) : List ℚ :=
  match dicts.map stackedValues with
  | [] => []
  | v :: vs => vs.foldl addVec v

/-- One call of `reduce_dict(input_dict, average)` (source lines 102-128),
as observed on the main process (rank 0); `dicts` lists the per-rank input
dicts in ascending rank order, so `world_size = dicts.length` and rank 0's
`input_dict = dicts[0]`.  On ranks other than 0 the post-reduce buffer is
implementation-defined per `dist.reduce` and is not modelled. -/
def reduce_dict {κ : Type} [LinearOrder κ] (dicts : List (List (κ × ℚ)))
    (average : Bool) : List (κ × ℚ) :=
  let world_size := dicts.length
  let input_dict := dicts.getD 0 []
  if world_size < 2 then input_dict
  else
    let names := sortedKeys input_dict
    let values := reducedValues dicts
    let values := if average then values.map (fun v => v / (world_size : ℚ)) else values
    names.zip values

example : reduce_dict (List.replicate 4 [('a', (1 : ℚ)), ('b', 2)]) true
    = [('a', 1), ('b', 2)] := by
  simp +decide [reduce_dict, reducedValues, stackedValues, sortedKeys, dictGetD, addVec,
    List.insertionSort, List.orderedInsert]
  norm_num

example : reduce_dict (List.replicate 4 [('a', (1 : ℚ)), ('b', 2)]) false
    = [('a', 4), ('b', 8)] := by
  simp +decide [reduce_dict, reducedValues, stackedValues, sortedKeys, dictGetD, addVec,
    List.insertionSort, List.orderedInsert]
  norm_num

example : reduce_dict [[('b', (2 : ℚ)), ('a', 1)], [('a', (1 : ℚ)), ('b', 2)]] true
    = [('a', 1), ('b', 2)] := by
  simp +decide [reduce_dict, reducedValues, stackedValues, sortedKeys, dictGetD, addVec,
    List.insertionSort, List.orderedInsert]

/-- A reference to a scalar tensor cell in process-local memory. -/
abbrev Ref := Nat

/-- Process-local tensor memory: a store of scalar cells.  In-place tensor
operations mutate cells; `torch.stack` allocates fresh cells. -/
structure Store where
  data : List ℚ

/-- Read the cell a reference points to. -/
def Store.read (s : Store) (r : Ref) : ℚ := s.data.getD r 0

/-- Allocate fresh cells holding the values `vs` and return the new store
together with the references of the fresh cells.  Models `torch.stack`,
which copies its inputs into a newly allocated tensor. -/
def Store.allocList (s : Store) (vs : List ℚ) : Store × List Ref :=
  (⟨s.data ++ vs⟩, (List.range vs.length).map (fun i => s.data.length + i))

/-- Overwrite the cells at `rs` with the values `vs`, pairwise.  Models an
in-place update of a tensor's cells. -/
def Store.writeList (s : Store) (rs : List Ref) (vs : List ℚ) : Store :=
  (rs.zip vs).foldl (fun st p => ⟨st.data.set p.1 p.2⟩) s

/-- The function `reduce_dict` at rank 0 with process-local memory made explicit, to
track which cells the in-place operations touch.  The input dict `m` maps
keys to references into the store `s`; `otherVals` are the stacked value
vectors contributed by ranks `1, ..., world_size - 1` through
`dist.reduce`.  `torch.stack` copies the looked-up values into fresh cells
(source line 121); `dist.reduce` accumulates into those fresh cells
(source line 122), and `values /= world_size` divides them in place
(source line 126). -/
def reduce_dict_state {κ : Type} [LinearOrder κ] (s : Store) (m : List (κ × Ref))
    (otherVals : List (List ℚ)) (world_size : Nat) (average : Bool) :
    Store × List (κ × Ref) :=
  if world_size < 2 then (s, m)
  else
    let names := sortedKeys m
    let localVals := names.map (fun k => s.read (dictGetD m k 0))
    let alloc := s.allocList localVals
    let summed := otherVals.foldl addVec localVals
    let s2 := alloc.1.writeList alloc.2 summed
    let s3 :=
      if average then s2.writeList alloc.2 (summed.map (fun v => v / (world_size : ℚ)))
      else s2
    (s3, names.zip alloc.2)

/-- The starting value of a `foldl max` is a lower bound of the result. -/
theorem le_foldl_max (l : List Nat) (a : Nat) : a ≤ l.foldl max a := by
  induction l generalizing a with
  | nil => simp
  | cons b t ih => exact le_trans (Nat.le_max_left a b) (ih (max a b))

/-- Every member of a list is bounded by its `foldl max`. -/
theorem mem_le_foldl_max {l : List Nat} {x : Nat} (h : x ∈ l) (a : Nat) :
    x ≤ l.foldl max a := by
  induction l generalizing a with
  | nil => cases h
  | cons b t ih =>
    rcases List.mem_cons.mp h with rfl | h
    · exact le_trans (Nat.le_max_right a x) (le_foldl_max t _)
    · exact ih h _

/-- Reading a mapped list at an in-range position. -/
theorem serBufs_getD {α : Type} (c : Codec α) (payloads : List α) (r : Nat)
    (hr : r < payloads.length) :
    (serBufs c payloads).getD r [] = c.ser payloads[r] := by
  simp [serBufs, List.getD_eq_getElem?_getD, List.getElem?_map,
    List.getElem?_eq_getElem hr]

/-- The local serialized size of an in-range rank occurs in `size_list`. -/
theorem localSize_mem_sizeList {α : Type} (c : Codec α) (payloads : List α) (r : Nat)
    (hr : r < payloads.length) :
    (c.ser payloads[r]).length ∈ sizeList c payloads := by
  have : c.ser payloads[r] ∈ serBufs c payloads :=
    List.mem_map_of_mem c.ser (payloads.getElem_mem hr)
  exact List.mem_map_of_mem List.length this

/-- The bound `local_size <= max_size` holds on every rank. -/
theorem localSize_le_maxSize {α : Type} (c : Codec α) (payloads : List α) (r : Nat)
    (hr : r < payloads.length) :
    (c.ser payloads[r]).length ≤ maxSize c payloads :=
  mem_le_foldl_max (localSize_mem_sizeList c payloads r hr) 0

/-- The padded tensor of rank `r` is its serialized buffer followed by the
(arbitrary) bytes of the padding allocation; the `local_size == max_size`
branch corresponds to an empty padding. -/
theorem paddedBuf_eq_append {α : Type} (c : Codec α) (pad : Nat → Nat → Nat)
    (payloads : List α) (r : Nat) (hr : r < payloads.length) :
    paddedBuf c pad payloads r =
      c.ser payloads[r] ++
        (List.range (maxSize c payloads - (c.ser payloads[r]).length)).map (pad r) := by
  unfold paddedBuf
  rw [serBufs_getD c payloads r hr]
  by_cases h : (c.ser payloads[r]).length = maxSize c payloads
  · simp [h]
  · simp [h]

/-- Every padded tensor has length exactly `max_size`. -/
theorem paddedBuf_length {α : Type} (c : Codec α) (pad : Nat → Nat → Nat)
    (payloads : List α) (r : Nat) (hr : r < payloads.length) :
    (paddedBuf c pad payloads r).length = maxSize c payloads := by
  rw [paddedBuf_eq_append c pad payloads r hr]
  have hle := localSize_le_maxSize c payloads r hr
  simp [Nat.add_sub_cancel' hle]

/-- With a self-delimiting codec, deserializing a padded tensor recovers
the originating rank's payload, whatever the padding bytes are. -/
theorem deser_paddedBuf {α : Type} (c : Codec α) (hc : SelfDelimiting c)
    (pad : Nat → Nat → Nat) (payloads : List α) (r : Nat) (hr : r < payloads.length) :
    c.deser (paddedBuf c pad payloads r) = some payloads[r] := by
  rw [paddedBuf_eq_append c pad payloads r hr]
  exact hc _ _

/-- Mapping `mapM` over a mapped list succeeds pointwise. -/
theorem mapM_map_eq_some {α β γ : Type} (f : β → Option γ) (g : α → β) (h : α → γ) :
    ∀ (l : List α), (∀ x ∈ l, f (g x) = some (h x)) → (l.map g).mapM f = some (l.map h) := by
  intro l
  induction l with
  | nil => intro _; rfl
  | cons a t ih =>
    intro hp
    have ha : f (g a) = some (h a) := hp a (List.mem_cons_self a t)
    have ht := ih (fun x hx => hp x (List.mem_cons_of_mem a hx))
    rw [List.map_cons, List.mapM_cons, ha, ht]
    rfl

/-- Reassembling a list from in-range reads. -/
theorem map_getD_range {α : Type} (l : List α) (d : α) :
    (List.range l.length).map (fun i => l.getD i d) = l := by
  apply List.ext_getElem
  · simp
  · intro i h1 h2
    simp [List.getD_eq_getElem?_getD, List.getElem?_eq_getElem h2]

/-- The main process deserializes the gathered tensors back to the exact
per-rank payload list whenever the codec is self-delimiting. -/
theorem mapM_deser_gatheredTensors {α : Type} [Inhabited α] (c : Codec α)
    (hc : SelfDelimiting c) (pad : Nat → Nat → Nat) (payloads : List α) :
    (gatheredTensors c pad payloads).mapM c.deser = some payloads := by
  unfold gatheredTensors
  have step : ∀ r ∈ List.range payloads.length,
      c.deser (paddedBuf c pad payloads r) = some (payloads.getD r default) := by
    intro r hr
    have hr' : r < payloads.length := List.mem_range.mp hr
    rw [List.getD_eq_getElem?_getD, List.getElem?_eq_getElem hr']
    exact deser_paddedBuf c hc pad payloads r hr'
  rw [mapM_map_eq_some c.deser (paddedBuf c pad payloads)
    (fun r => payloads.getD r default) (List.range payloads.length) step]
  rw [map_getD_range payloads default]

/-- Lookup in a dict with no duplicate keys is invariant under permutation
of its entries. -/
theorem dictGetD_perm {κ β : Type} [DecidableEq κ] {m m' : List (κ × β)}
    (h : m.Perm m') (hn : (m.map Prod.fst).Nodup) (k : κ) (d : β) :
    dictGetD m k d = dictGetD m' k d := by
  induction h with
  | nil => rfl
  | cons p h ih =>
    rw [List.map_cons, List.nodup_cons] at hn
    by_cases hk : k = p.1
    · simp [dictGetD, hk]
    · simp [dictGetD, hk, ih hn.2]
  | swap p q t =>
    rw [List.map_cons, List.map_cons, List.nodup_cons] at hn
    have hpq : q.1 ≠ p.1 := fun hqp => hn.1 (hqp ▸ List.mem_cons_self p.1 _)
    by_cases hk : k = q.1
    · subst hk
      simp [dictGetD, hpq]
    · by_cases hk' : k = p.1
      · subst hk'
        simp [dictGetD, hk, Ne.symm hpq]
      · simp [dictGetD, hk, hk']
  | trans h₁ h₂ ih₁ ih₂ =>
    have hn' : _ := ((h₁.map Prod.fst).nodup_iff).mp hn
    rw [ih₁ hn, ih₂ hn']

/-- Dicts whose key multisets agree produce the same sorted key list. -/
theorem sortedKeys_perm_eq {κ β : Type} [LinearOrder κ] {m m' : List (κ × β)}
    (h : (m.map Prod.fst).Perm (m'.map Prod.fst)) : sortedKeys m = sortedKeys m' := by
  refine List.eq_of_perm_of_sorted ?_
    (List.sorted_insertionSort _ _) (List.sorted_insertionSort _ _)
  exact (List.perm_insertionSort _ _).trans (h.trans (List.perm_insertionSort _ _).symm)

/-- The stacked value vector of a dict with no duplicate keys only depends
on the dict's set of key-value pairs, not on insertion order. -/
theorem stackedValues_congr {κ : Type} [LinearOrder κ] {m m' : List (κ × ℚ)}
    (h : m.Perm m') (hn : (m.map Prod.fst).Nodup) :
    stackedValues m = stackedValues m' := by
  unfold stackedValues
  rw [sortedKeys_perm_eq (h.map Prod.fst)]
  exact List.map_congr_left (fun k _ => dictGetD_perm h hn k 0)

/-- Elementwise addition of two vectors indexed by the same key list. -/
theorem addVec_map_map {κ : Type} (names : List κ) (f g : κ → ℚ) :
    addVec (names.map f) (names.map g) = names.map (fun k => f k + g k) := by
  induction names with
  | nil => rfl
  | cons a t ih =>
    simp only [List.map_cons, addVec, List.zipWith_cons_cons]
    rw [show List.zipWith (· + ·) (t.map f) (t.map g) = addVec (t.map f) (t.map g) from rfl, ih]

/-- Folding elementwise addition over per-rank vectors indexed by a common
key list computes the keywise sum. -/
theorem foldl_addVec_maps {κ α : Type} (l : List α) (f : α → κ → ℚ) :
    ∀ (names : List κ) (v : κ → ℚ),
      (l.map (fun x => names.map (f x))).foldl addVec (names.map v)
        = names.map (fun k => v k + (l.map (fun x => f x k)).sum) := by
  induction l with
  | nil => intro names v; simp
  | cons a t ih =>
    intro names v
    simp only [List.map_cons, List.foldl_cons]
    rw [addVec_map_map, ih names (fun k => v k + f a k)]
    apply List.map_congr_left
    intro k _
    simp [add_assoc]

/-- On the main process, whenever the single-process early return is not
taken, `gather_on_master` returns the full payload list provided the codec
is self-delimiting. -/
theorem gather_main_eq_ok {α : Type} [Inhabited α] (c : Codec α)
    (hc : SelfDelimiting c) (pad : Nat → Nat → Nat) (payloads : List α)
    (h1 : payloads.length ≠ 1) :
    gather_on_master c pad payloads 0 = GatherResult.ok payloads := by
  unfold gather_on_master
  rw [if_neg h1, if_pos rfl, mapM_deser_gatheredTensors c hc pad payloads]

/-- C6: when the world size is 1, `gather_on_master` returns a
single-element list holding the local payload directly; the result does
not depend on the serialization codec nor on any padding bytes, reflecting
that the single-process path performs no serialization and no collective
communication. -/
theorem gather_on_master_single {α : Type} [Inhabited α] (x : α)
    (c c' : Codec α) (pad pad' : Nat → Nat → Nat) :
    gather_on_master c pad [x] 0 = GatherResult.ok [x] ∧
      gather_on_master c pad [x] 0 = gather_on_master c' pad' [x] 0 :=
  ⟨rfl, rfl⟩

/-- C1: for a group of N ≥ 2 processes and a self-delimiting codec
(pickle), the main process obtains the length-N list of all ranks'
payloads in ascending rank order, each element recovered exactly —
whatever the uninitialized padding bytes are and however the serialized
lengths differ — while every non-main rank gets no result. -/
theorem gather_on_master_correct {α : Type} [Inhabited α] (c : Codec α)
    (hc : SelfDelimiting c) (pad : Nat → Nat → Nat) (payloads : List α)
    (hN : 2 ≤ payloads.length) :
    gather_on_master c pad payloads 0 = GatherResult.ok payloads ∧
      ∀ rank, 0 < rank → rank < payloads.length →
        gather_on_master c pad payloads rank = GatherResult.noResult := by
  constructor
  · exact gather_main_eq_ok c hc pad payloads (by omega)
  · intro rank h0 hr
    unfold gather_on_master
    rw [if_neg (by omega), if_neg (by omega)]

/-- C1 witness: a three-rank group with payloads of pairwise different
serialized lengths and nonzero padding bytes. -/
theorem gather_on_master_correct_witness :
    gather_on_master lpCodec (fun r i => r + i + 1) [[5], [7, 8], []] 0
        = GatherResult.ok [[5], [7, 8], []] ∧
      gather_on_master lpCodec (fun r i => r + i + 1) [[5], [7, 8], []] 2
        = GatherResult.noResult :=
  ⟨(gather_on_master_correct lpCodec lpCodec_selfDelimiting (fun r i => r + i + 1)
      [[5], [7, 8], []] (by decide)).1,
   (gather_on_master_correct lpCodec lpCodec_selfDelimiting (fun r i => r + i + 1)
      [[5], [7, 8], []] (by decide)).2 2 (by decide) (by decide)⟩

/-- C9: the local serialized size of every rank occurs in the all-gathered
size list and hence is at most `max_size`, so the padding length
`max_size - local_size` is never negative; the padding branch leaves the
buffer untouched when `local_size = max_size`, and the padded tensor of
every rank has length exactly `max_size`. -/
theorem gather_padding_safe {α : Type} (c : Codec α) (pad : Nat → Nat → Nat)
    (payloads : List α) (r : Nat) (hr : r < payloads.length) :
    (c.ser payloads[r]).length ∈ sizeList c payloads ∧
      (c.ser payloads[r]).length ≤ maxSize c payloads ∧
      (paddedBuf c pad payloads r).length = maxSize c payloads ∧
      ((c.ser payloads[r]).length = maxSize c payloads →
        paddedBuf c pad payloads r = c.ser payloads[r]) := by
  refine ⟨localSize_mem_sizeList c payloads r hr, localSize_le_maxSize c payloads r hr,
    paddedBuf_length c pad payloads r hr, ?_⟩
  intro h
  unfold paddedBuf
  rw [serBufs_getD c payloads r hr]
  simp [h]

/-- C9 witness: the first rank of a three-rank group with distinct
serialized sizes, under nonzero padding bytes. -/
theorem gather_padding_safe_witness :
    (lpCodec.ser [5]).length ∈ sizeList lpCodec [[5], [7, 8], []] ∧
      (lpCodec.ser [5]).length ≤ maxSize lpCodec [[5], [7, 8], []] ∧
      (paddedBuf lpCodec (fun _ _ => 9) [[5], [7, 8], []] 0).length
          = maxSize lpCodec [[5], [7, 8], []] ∧
      ((lpCodec.ser [5]).length = maxSize lpCodec [[5], [7, 8], []] →
        paddedBuf lpCodec (fun _ _ => 9) [[5], [7, 8], []] 0 = lpCodec.ser [5]) :=
  gather_padding_safe lpCodec (fun _ _ => 9) [[5], [7, 8], []] 0 (by decide)

/-- C8: the aggregated outputs are deterministic.  The only input of
`gather_on_master` not fixed by the caller is the uninitialized padding
memory, and the result on every rank is independent of it; `reduce_dict`
is a pure function of its inputs, so two runs on the same inputs agree. -/
theorem aggregator_deterministic {α κ : Type} [Inhabited α] [LinearOrder κ]
    (c : Codec α) (hc : SelfDelimiting c) (payloads : List α) (rank : Nat)
    (pad pad' : Nat → Nat → Nat) (dicts : List (List (κ × ℚ))) (average : Bool) :
    gather_on_master c pad payloads rank = gather_on_master c pad' payloads rank ∧
      reduce_dict dicts average = reduce_dict dicts average := by
  refine ⟨?_, rfl⟩
  by_cases h1 : payloads.length = 1
  · unfold gather_on_master
    rw [if_pos h1, if_pos h1]
  · by_cases h0 : rank = 0
    · subst h0
      rw [gather_main_eq_ok c hc pad payloads h1, gather_main_eq_ok c hc pad' payloads h1]
    · unfold gather_on_master
      rw [if_neg h1, if_neg h1, if_neg h0, if_neg h0]

/-- C8 witness: two runs of a two-rank gather whose uninitialized padding
memories hold different bytes, and a repeated two-rank reduction. -/
theorem aggregator_deterministic_witness :
    gather_on_master lpCodec (fun _ _ => 3) [[5], []] 0
        = gather_on_master lpCodec (fun _ _ => 8) [[5], []] 0 ∧
      reduce_dict [[('a', (1 : ℚ))], [('a', 2)]] true
        = reduce_dict [[('a', (1 : ℚ))], [('a', 2)]] true :=
  aggregator_deterministic lpCodec lpCodec_selfDelimiting [[5], []] 0
    (fun _ _ => 3) (fun _ _ => 8) [[('a', (1 : ℚ))], [('a', 2)]] true

/-- C3 counterexample: `torch.ByteTensor(size=(n,))` is an uninitialized
allocation, not a zero-filled one.  With padding memory holding the byte 7,
the padded tensor of rank 1 (buffer `[0]`, one byte short of `max_size`)
is its buffer followed by the byte 7, not by a trailing zero byte as the
claim states. -/
theorem gather_padding_not_zero :
    paddedBuf lpCodec (fun _ _ => 7) [[5], []] 1
      ≠ (serBufs lpCodec [[5], []]).getD 1 [] ++ List.replicate 1 0 := by decide

/-- C3 amended: every process whose serialized buffer is shorter than the
maximum reported length pads it with `max_size - local_size` trailing bytes
of unspecified (uninitialized) content — not necessarily zero — so that
the gather collective operates on equal-length buffers: the padded tensor
of every rank has length exactly `max_size`. -/
theorem gather_padding_equalizes {α : Type} (c : Codec α) (pad : Nat → Nat → Nat)
    (payloads : List α) (r : Nat) (hr : r < payloads.length) :
    paddedBuf c pad payloads r
        = c.ser payloads[r] ++
            (List.range (maxSize c payloads - (c.ser payloads[r]).length)).map (pad r) ∧
      (paddedBuf c pad payloads r).length = maxSize c payloads :=
  ⟨paddedBuf_eq_append c pad payloads r hr, paddedBuf_length c pad payloads r hr⟩

/-- C3 amended witness: rank 1 of a two-rank group whose buffer is one
byte short, with padding memory holding the byte 7. -/
theorem gather_padding_equalizes_witness :
    paddedBuf lpCodec (fun _ _ => 7) [[5], []] 1
        = lpCodec.ser [] ++
            (List.range (maxSize lpCodec [[5], []] - (lpCodec.ser []).length)).map
              ((fun _ _ => 7) 1) ∧
      (paddedBuf lpCodec (fun _ _ => 7) [[5], []] 1).length = maxSize lpCodec [[5], []] :=
  gather_padding_equalizes lpCodec (fun _ _ => 7) [[5], []] 1 (by decide)

/-- C2 counterexample: the main process does not truncate received buffers
back to their reported sizes.  In a two-rank group with reported sizes 2
and 1, the buffer handed to the deserializer for rank 1 is the full padded
tensor of length 2 (`max_size`), which differs from its truncation to the
reported length 1. -/
theorem master_no_truncation :
    (masterDeserInput lpCodec (fun _ _ => 7) [[5], []] 1).length = 2 ∧
      (sizeList lpCodec [[5], []]).getD 1 0 = 1 ∧
      masterDeserInput lpCodec (fun _ _ => 7) [[5], []] 1
        ≠ (masterDeserInput lpCodec (fun _ _ => 7) [[5], []] 1).take
            ((sizeList lpCodec [[5], []]).getD 1 0) := by decide

/-- Reading the gathered tensor list at an in-range rank. -/
theorem masterDeserInput_eq_paddedBuf {α : Type} (c : Codec α) (pad : Nat → Nat → Nat)
    (payloads : List α) (r : Nat) (hr : r < payloads.length) :
    masterDeserInput c pad payloads r = paddedBuf c pad payloads r := by
  simp [masterDeserInput, gatheredTensors, List.getD_eq_getElem?_getD,
    List.getElem?_map, List.getElem?_range hr]

/-- C2 amended: with world size ≥ 2, the main process deserializes each
received buffer at its full padded length `max_size`, performing no
truncation back to the per-rank reported size; the produced sequence is
nevertheless the payloads in ascending rank order, because pickle
deserialization stops at the end of the serialized stream and ignores the
trailing padding bytes. -/
theorem master_deserializes_untruncated {α : Type} [Inhabited α] (c : Codec α)
    (hc : SelfDelimiting c) (pad : Nat → Nat → Nat) (payloads : List α)
    (hN : 2 ≤ payloads.length) (r : Nat) (hr : r < payloads.length) :
    masterDeserInput c pad payloads r = paddedBuf c pad payloads r ∧
      (masterDeserInput c pad payloads r).length = maxSize c payloads ∧
      gather_on_master c pad payloads 0 = GatherResult.ok payloads := by
  refine ⟨masterDeserInput_eq_paddedBuf c pad payloads r hr, ?_,
    gather_main_eq_ok c hc pad payloads (by omega)⟩
  rw [masterDeserInput_eq_paddedBuf c pad payloads r hr]
  exact paddedBuf_length c pad payloads r hr

/-- C2 amended witness: rank 1 of the two-rank group with reported sizes
2 and 1, nonzero padding. -/
theorem master_deserializes_untruncated_witness :
    masterDeserInput lpCodec (fun _ _ => 7) [[5], []] 1
        = paddedBuf lpCodec (fun _ _ => 7) [[5], []] 1 ∧
      (masterDeserInput lpCodec (fun _ _ => 7) [[5], []] 1).length
          = maxSize lpCodec [[5], []] ∧
      gather_on_master lpCodec (fun _ _ => 7) [[5], []] 0
          = GatherResult.ok [[5], []] :=
  master_deserializes_untruncated lpCodec lpCodec_selfDelimiting (fun _ _ => 7)
    [[5], []] (by decide) 1 (by decide)

/-- Unfolding `reducedValues` of a nonempty dict list folds the tail onto the head. -/
theorem reducedValues_cons {κ : Type} [LinearOrder κ] (m : List (κ × ℚ))
    (ms : List (List (κ × ℚ))) :
    reducedValues (m :: ms) = (ms.map stackedValues).foldl addVec (stackedValues m) := rfl

/-- C4: for per-rank mappings with identical key multisets, `reduce_dict`
with world size N ≥ 2 sum-reduces the values keywise onto the main
process, dividing every reduced value by N exactly when `average` is set;
concretely, four ranks each holding `{a: 1, b: 2}` yield `{a: 1, b: 2}`
with `average = true` and `{a: 4, b: 8}` with `average = false`. -/
theorem reduce_dict_sum_and_average :
    (∀ (κ : Type) [LinearOrder κ] (m₀ m₁ : List (κ × ℚ))
        (rest : List (List (κ × ℚ))) (average : Bool),
      (∀ m ∈ m₀ :: m₁ :: rest, (m.map Prod.fst).Perm (m₀.map Prod.fst)) →
      reduce_dict (m₀ :: m₁ :: rest) average
        = (sortedKeys m₀).zip ((sortedKeys m₀).map (fun k =>
            if average
            then ((m₀ :: m₁ :: rest).map (fun m => dictGetD m k 0)).sum
                / (((m₀ :: m₁ :: rest).length : ℚ))
            else ((m₀ :: m₁ :: rest).map (fun m => dictGetD m k 0)).sum))) ∧
      reduce_dict (List.replicate 4 [('a', (1 : ℚ)), ('b', 2)]) true
        = [('a', 1), ('b', 2)] ∧
      reduce_dict (List.replicate 4 [('a', (1 : ℚ)), ('b', 2)]) false
        = [('a', 4), ('b', 8)] := by
  refine ⟨?_, ?_, ?_⟩
  · intro κ _inst m₀ m₁ rest average hkeys
    have hsk : ∀ m ∈ m₁ :: rest,
        stackedValues m = (sortedKeys m₀).map (fun k => dictGetD m k 0) := by
      intro m hm
      unfold stackedValues
      rw [sortedKeys_perm_eq (hkeys m (List.mem_cons_of_mem m₀ hm))]
    have hred : reducedValues (m₀ :: m₁ :: rest)
        = (sortedKeys m₀).map (fun k =>
            dictGetD m₀ k 0 + ((m₁ :: rest).map (fun m => dictGetD m k 0)).sum) := by
      rw [reducedValues_cons, List.map_congr_left hsk,
        show stackedValues m₀ = (sortedKeys m₀).map (fun k => dictGetD m₀ k 0) from rfl,
        foldl_addVec_maps]
    unfold reduce_dict
    rw [if_neg (by simp)]
    rw [List.getD_cons_zero, hred]
    cases average with
    | true => simp [List.map_map, Function.comp_def, List.sum_cons]
    | false => simp [List.sum_cons]
  · simp +decide [reduce_dict, reducedValues, stackedValues, sortedKeys, dictGetD, addVec,
      List.insertionSort, List.orderedInsert]
    norm_num
  · simp +decide [reduce_dict, reducedValues, stackedValues, sortedKeys, dictGetD, addVec,
      List.insertionSort, List.orderedInsert]
    norm_num

/-- C4 witness: a two-rank group holding the same two-key mapping, one
rank with reversed insertion order, averaged. -/
theorem reduce_dict_sum_and_average_witness :
    reduce_dict [[('a', (1 : ℚ)), ('b', 2)], [('b', 2), ('a', 1)]] true
      = (sortedKeys [('a', (1 : ℚ)), ('b', 2)]).zip
          ((sortedKeys [('a', (1 : ℚ)), ('b', 2)]).map (fun k =>
            if true
            then (([('a', (1 : ℚ)), ('b', 2)] :: [('b', 2), ('a', 1)] :: []).map
                  (fun m => dictGetD m k 0)).sum
                / ((([('a', (1 : ℚ)), ('b', 2)] :: [('b', 2), ('a', 1)] :: []).length : ℚ))
            else (([('a', (1 : ℚ)), ('b', 2)] :: [('b', 2), ('a', 1)] :: []).map
                  (fun m => dictGetD m k 0)).sum)) :=
  reduce_dict_sum_and_average.1 Char [('a', (1 : ℚ)), ('b', 2)] [('b', 2), ('a', 1)] []
    true (by decide)

/-- C5: the main-process result of `reduce_dict` with world size ≥ 2 does
not depend on the call-site insertion order of the per-rank mappings:
permuting the entries of each rank's dict (same key-value pairs, no
duplicate keys) leaves the result unchanged, because values are aligned by
lexicographically sorted key. -/
theorem reduce_dict_insertion_order_independent {κ : Type} [LinearOrder κ]
    (ds ds' : List (List (κ × ℚ))) (average : Bool) (hN : 2 ≤ ds.length)
    (h : List.Forall₂ (fun m m' => m.Perm m' ∧ (m.map Prod.fst).Nodup) ds ds') :
    reduce_dict ds average = reduce_dict ds' average := by
  have hlen : ds.length = ds'.length := h.length_eq
  have hmap : ds.map stackedValues = ds'.map stackedValues := by
    clear hN hlen
    induction h with
    | nil => rfl
    | cons hp ht ih =>
      rw [List.map_cons, List.map_cons, stackedValues_congr hp.1 hp.2, ih]
  have hred : reducedValues ds = reducedValues ds' := by
    unfold reducedValues
    rw [hmap]
  have hhead : sortedKeys (ds.getD 0 []) = sortedKeys (ds'.getD 0 []) := by
    clear hN hlen hmap hred
    cases h with
    | nil => rfl
    | cons hp ht =>
      simp only [List.getD_cons_zero]
      exact sortedKeys_perm_eq (hp.1.map Prod.fst)
  unfold reduce_dict
  rw [if_neg (by omega), if_neg (by rw [← hlen]; omega), hhead, hred, hlen]

/-- C5 witness: two ranks, each rank's dict rebuilt with reversed
insertion order on the right-hand side. -/
theorem reduce_dict_insertion_order_independent_witness :
    reduce_dict [[('a', (1 : ℚ)), ('b', 2)], [('a', 3), ('b', 4)]] true
      = reduce_dict [[('b', (2 : ℚ)), ('a', 1)], [('b', 4), ('a', 3)]] true :=
  reduce_dict_insertion_order_independent
    [[('a', (1 : ℚ)), ('b', 2)], [('a', 3), ('b', 4)]]
    [[('b', (2 : ℚ)), ('a', 1)], [('b', 4), ('a', 3)]] true (by decide)
    (List.Forall₂.cons ⟨by decide, by decide⟩
      (List.Forall₂.cons ⟨by decide, by decide⟩ List.Forall₂.nil))

/-- C7: with world size < 2 there is a single participating process, and
`reduce_dict` returns its input mapping unchanged — not even reordered —
for either value of `average`, performing no communication. -/
theorem reduce_dict_single {κ : Type} [LinearOrder κ] (m : List (κ × ℚ))
    (average : Bool) : reduce_dict [m] average = m := rfl

/-- Allocation does not change the contents of existing cells. -/
theorem Store.read_allocList (s : Store) (vs : List ℚ) (r : Ref)
    (hr : r < s.data.length) : (s.allocList vs).1.read r = s.read r := by
  simp [Store.allocList, Store.read, List.getD_eq_getElem?_getD,
    List.getElem?_append_left hr]

/-- All references returned by an allocation are fresh: at or above the
pre-allocation store size. -/
theorem allocList_refs_ge (s : Store) (vs : List ℚ) :
    ∀ x ∈ (s.allocList vs).2, s.data.length ≤ x := by
  intro x hx
  simp only [Store.allocList, List.mem_map, List.mem_range] at hx
  obtain ⟨i, _, rfl⟩ := hx
  omega

/-- A fold of single-cell writes at references different from `r` leaves
the cell at `r` unchanged. -/
theorem read_foldl_set (ps : List (Ref × ℚ)) : ∀ (s : Store) (r : Ref),
    (∀ p ∈ ps, r ≠ p.1) →
    (ps.foldl (fun st p => ⟨st.data.set p.1 p.2⟩) s).read r = s.read r := by
  induction ps with
  | nil => intro s r _; rfl
  | cons p t ih =>
    intro s r h
    rw [List.foldl_cons, ih _ r (fun q hq => h q (List.mem_cons_of_mem p hq))]
    have hne : p.1 ≠ r := fun e => h p (List.mem_cons_self p t) e.symm
    simp [Store.read, List.getD_eq_getElem?_getD, List.getElem?_set_ne hne]

/-- Writing at references different from `r` leaves the cell at `r`
unchanged. -/
theorem Store.read_writeList (s : Store) (rs : List Ref) (vs : List ℚ) (r : Ref)
    (h : ∀ x ∈ rs, r ≠ x) : (s.writeList rs vs).read r = s.read r :=
  read_foldl_set (rs.zip vs) s r (fun p hp => h p.1 (List.of_mem_zip hp).1)

/-- The stack-write-divide sequence of `reduce_dict` only touches the
freshly allocated cells: any cell existing before the call reads back
unchanged. -/
theorem frame_core (s : Store) (localVals summed v2 : List ℚ) (average : Bool)
    (r : Ref) (hr : r < s.data.length) :
    (if average
      then ((s.allocList localVals).1.writeList (s.allocList localVals).2
          summed).writeList (s.allocList localVals).2 v2
      else (s.allocList localVals).1.writeList (s.allocList localVals).2 summed).read r
      = s.read r := by
  have hne : ∀ x ∈ (s.allocList localVals).2, r ≠ x := by
    intro x hx
    exact Nat.ne_of_lt (lt_of_lt_of_le hr (allocList_refs_ge s localVals x hx))
  cases average with
  | false =>
    rw [if_neg (by simp)]
    rw [Store.read_writeList _ _ _ _ hne, Store.read_allocList s localVals r hr]
  | true =>
    rw [if_pos rfl]
    rw [Store.read_writeList _ _ _ _ hne, Store.read_writeList _ _ _ _ hne,
      Store.read_allocList s localVals r hr]

/-- C10: `reduce_dict` leaves the caller's input mapping untouched: the
sum written by the reduction and the in-place division by world size are
applied to the freshly allocated cells of the stacked tensor copy, never
to the cells the input dict references, and with world size ≥ 2 the
returned mapping is a new object — its value references are disjoint from
the input's — whose key multiset equals the input's. -/
theorem reduce_dict_state_frame {κ : Type} [LinearOrder κ] (s : Store)
    (m : List (κ × Ref)) (otherVals : List (List ℚ)) (world_size : Nat)
    (average : Bool) (hvalid : ∀ p ∈ m, p.2 < s.data.length) :
    (∀ p ∈ m, (reduce_dict_state s m otherVals world_size average).1.read p.2
        = s.read p.2) ∧
      ((reduce_dict_state s m otherVals world_size average).2.map Prod.fst).Perm
        (m.map Prod.fst) ∧
      (2 ≤ world_size → ∀ p ∈ m,
        ∀ q ∈ (reduce_dict_state s m otherVals world_size average).2, p.2 ≠ q.2) := by
  by_cases hw : world_size < 2
  · refine ⟨?_, ?_, ?_⟩
    · intro p _
      unfold reduce_dict_state
      rw [if_pos hw]
    · unfold reduce_dict_state
      rw [if_pos hw]
    · intro h2
      omega
  · have hres2 : (reduce_dict_state s m otherVals world_size average).2
        = (sortedKeys m).zip (s.allocList ((sortedKeys m).map
            (fun k => s.read (dictGetD m k 0)))).2 := by
      unfold reduce_dict_state
      rw [if_neg hw]
    refine ⟨?_, ?_, ?_⟩
    · intro p hp
      unfold reduce_dict_state
      rw [if_neg hw]
      exact frame_core s _ _ _ average p.2 (hvalid p hp)
    · rw [hres2, List.map_fst_zip _ _ (by simp [Store.allocList])]
      exact List.perm_insertionSort _ _
    · intro _ p hp q hq
      rw [hres2] at hq
      exact Nat.ne_of_lt (lt_of_lt_of_le (hvalid p hp)
        (allocList_refs_ge s _ q.2 (List.of_mem_zip hq).2))

/-- C10 witness: a two-rank reduction over a two-key dict whose values
live in cells 0 and 1; both input cells read back unchanged and the
returned dict's references are fresh. -/
theorem reduce_dict_state_frame_witness :
    (reduce_dict_state ⟨[3, 4]⟩ [('a', 0), ('b', 1)] [[1, 2]] 2 true).1.read 0
        = Store.read ⟨[3, 4]⟩ 0 ∧
      (reduce_dict_state ⟨[3, 4]⟩ [('a', 0), ('b', 1)] [[1, 2]] 2 true).1.read 1
        = Store.read ⟨[3, 4]⟩ 1 ∧
      ((reduce_dict_state ⟨[3, 4]⟩ [('a', 0), ('b', 1)] [[1, 2]] 2 true).2.map
          Prod.fst).Perm ['a', 'b'] :=
  ⟨(reduce_dict_state_frame ⟨[3, 4]⟩ [('a', 0), ('b', 1)] [[1, 2]] 2 true
      (by decide)).1 ('a', 0) (by decide),
   (reduce_dict_state_frame ⟨[3, 4]⟩ [('a', 0), ('b', 1)] [[1, 2]] 2 true
      (by decide)).1 ('b', 1) (by decide),
   (reduce_dict_state_frame ⟨[3, 4]⟩ [('a', 0), ('b', 1)] [[1, 2]] 2 true
      (by decide)).2.1⟩
